import Mathlib

/-!
Verification of the boundary-aware text segmentation core of the
rag-document-chat repository (class `LogicalTextSplitter` in `src/app.py`).

The Python code is shallowly embedded: strings are Lean `String`s
(`List Char` underneath, so `len` is the character count), the mutable
accumulator loops of `_chunk_paragraph` become structural recursions over the
sentence list, and the two tunables `chunk_size` / `chunk_overlap` are `Nat`
parameters.  Python-specific primitives (`str.strip`, `str.split`,
`re.split(r'\n\s*\n', ...)`, `re.sub(r'\s+', ' ', ...)`) are embedded by
explicit character-level functions with the same semantics on the ASCII
whitespace set used by Python's `\s`.

The one external component, `nltk.sent_tokenize`, is not part of the
repository; it is modelled from the specification (see `sentTokenize`).
Everything else is translated directly from `src/app.py`.
-/

/-- Python `\s` / `str.strip` whitespace characters (ASCII fragment:
space, tab, newline, carriage return, vertical tab, form feed). -/
def isPySpace (c : Char) : Bool :=
  c == ' ' || c == '\t' || c == '\n' || c == '\r' ||
    c == Char.ofNat 11 || c == Char.ofNat 12

/-- Python `str.islower()` for a single character (ASCII fragment). -/
def isPyLower (c : Char) : Bool :=
  'a' ≤ c && c ≤ 'z'

/-- ASCII upper-case letter test (used by the modelled sentence tokenizer). -/
def isPyUpper (c : Char) : Bool :=
  'A' ≤ c && c ≤ 'Z'

/-- Character-level `str.strip`: drop trailing then leading whitespace. -/
def pyStripData (l : List Char) : List Char :=
  List.dropWhile isPySpace ((List.dropWhile isPySpace l.reverse).reverse)

/-- Python `str.strip()`. -/
def pyStrip (s : String) : String :=
  String.mk (pyStripData s.data)

/-- Python `str.rstrip()`. -/
def pyRstrip (s : String) : String :=
  String.mk ((List.dropWhile isPySpace s.data.reverse).reverse)

/-- Python `s.endswith(t)`. -/
def pyEndsWith (s t : String) : Bool :=
  t.data.isSuffixOf s.data

/-- Worker for `pySplitWs`: `acc` is the current word reversed. -/
def splitWsAux : List Char → List Char → List String
  | [], acc => if acc.isEmpty then [] else [String.mk acc.reverse]
  | c :: cs, acc =>
    if isPySpace c then
      if acc.isEmpty then splitWsAux cs []
      else String.mk acc.reverse :: splitWsAux cs []
    else splitWsAux cs (c :: acc)

/-- Python `str.split()` with no argument: split on whitespace runs,
discarding empty pieces. -/
def pySplitWs (s : String) : List String :=
  splitWsAux s.data []

/-- Worker for `normWs`: the flag records whether the previous character was
part of a whitespace run already replaced by a single space. -/
def normWsAux : Bool → List Char → List Char
  | _, [] => []
  | inRun, c :: cs =>
    if isPySpace c then
      if inRun then normWsAux true cs else ' ' :: normWsAux true cs
    else c :: normWsAux false cs

/-- Python `re.sub(r'\s+', ' ', s)`: collapse every maximal whitespace run
to a single space. -/
def normWs (s : String) : String :=
  String.mk (normWsAux false s.data)

/-- Space-join of a list of strings (the form the accumulator of
`_chunk_paragraph` takes). -/
def joinSp : List String → String
  | [] => ""
  | [x] => x
  | x :: y :: rest => x ++ " " ++ joinSp (y :: rest)

/-- `current_chunk = overlap_text + " " + sentence if overlap_text else
sentence` as a function of the overlap text. -/
def glue (ov x : String) : String :=
  if ov = "" then x else ov ++ " " ++ x

/-- Blank-line join, used to state the paragraph-split idempotence claim. -/
def joinBlank : List String → String
  | [] => ""
  | [p] => p
  | p :: q :: rest => p ++ "\n\n" ++ joinBlank (q :: rest)

/-- Worker for `splitBlank`, the semantics of
`re.split(r'\n\s*\n', text)`.  `acc` is the current candidate paragraph
(reversed); `pend` (reversed) is a pending run "newline followed by
whitespace" that may still turn into a separator.  A separator match of
`\n\s*\n` runs from a newline to the last newline inside the contiguous
whitespace run that follows it (greedy `\s*` with backtracking); whitespace
after that last newline belongs to the next candidate. -/
def splitBlankAux : List Char → List Char → List Char → List String
  | [], acc, pend =>
    if 2 ≤ pend.count '\n' then
      [String.mk acc.reverse,
       String.mk (pend.takeWhile (fun d => d ≠ '\n')).reverse]
    else [String.mk (pend ++ acc).reverse]
  | c :: rest, acc, pend =>
    if pend.isEmpty then
      if c = '\n' then splitBlankAux rest acc [c]
      else splitBlankAux rest (c :: acc) []
    else
      if isPySpace c then splitBlankAux rest acc (c :: pend)
      else
        if 2 ≤ pend.count '\n' then
          String.mk acc.reverse ::
            splitBlankAux rest (c :: pend.takeWhile (fun d => d ≠ '\n')) []
        else splitBlankAux rest (c :: (pend ++ acc)) []

/-- `re.split(r'\n\s*\n', s)`. -/
def splitBlank (s : String) : List String :=
  splitBlankAux s.data [] []

/-- The cleaning loop of `_split_by_paragraphs`: strip each candidate, keep
it when non-empty and of length `> 20`, normalizing whitespace on the kept
ones (`src/app.py` lines 129-136). -/
def cleanParas : List String → List String
  | [] => []
  | p :: rest =>
    if pyStrip p ≠ "" ∧ 20 < (pyStrip p).length then
      normWs (pyStrip p) :: cleanParas rest
    else cleanParas rest

/-- `LogicalTextSplitter._split_by_paragraphs` (`src/app.py` lines 125-136). -/
def splitByParagraphs (text : String) : List String :=
  cleanParas (splitBlank (pyStrip text))

/-- End-of-sentence punctuation recognised by the modelled tokenizer. -/
def isSentEnd (c : Char) : Bool :=
  c == '.' || c == '!' || c == '?'

/-- Worker for `sentTokenize`.  The `Bool` flag is true while skipping the
whitespace that separates two sentences; `acc` is the current sentence
reversed. -/
def sentAux : List Char → Bool → List Char → List (List Char)
  | [], _, acc => if acc.isEmpty then [] else [acc.reverse]
  | c :: rest, true, acc =>
    if isPySpace c then sentAux rest true acc
    else sentAux rest false (c :: acc)
  | c :: rest, false, acc =>
    if isSentEnd c &&
        !(rest.takeWhile isPySpace).isEmpty &&
        (match rest.dropWhile isPySpace with
          | d :: _ => isPyUpper d
          | [] => false) then
      (c :: acc).reverse :: sentAux rest true []
    else sentAux rest false (c :: acc)

/-- Modelled from the spec: the base sentence tokenization pass
(`nltk.sent_tokenize`, external to the repository) is "standard
sentence-boundary detection (end-of-sentence punctuation followed by
whitespace and a capital-letter or end-of-text heuristic)" (spec §4.2).
A sentence ends at `.`/`!`/`?` when followed by at least one whitespace
character and then an upper-case letter; the separating whitespace is
consumed; the final sentence is the remaining text. -/
def sentTokenize (s : String) : List String :=
  (sentAux s.data false []).map String.mk

/-- The abbreviation set of `LogicalTextSplitter.__init__`
(`src/app.py` lines 106-110). -/
def abbreviations : List String :=
  ["Dr.", "Mr.", "Mrs.", "Ms.", "Prof.", "vs.", "etc.",
   "i.e.", "e.g.", "cf.", "al.", "Inc.", "Ltd.", "Corp.",
   "St.", "Ave.", "Blvd.", "Dept.", "Fig.", "Vol.", "No."]

/-- `next_sentence[0].islower()` guarded by non-emptiness. -/
def firstCharLower (s : String) : Bool :=
  match s.data with
  | [] => false
  | c :: _ => isPyLower c

/-- The abbreviation post-processing loop of `_split_into_sentences`
(`src/app.py` lines 143-159): when the current sentence has at least one
word, its rstripped text ends with a known abbreviation, and the stripped
next sentence is non-empty and starts with a lower-case character, the next
sentence is absorbed (joined with a single space) and the scan advances past
it; each emitted sentence is stripped. -/
def mergeLoop : List String → List String
  | [] => []
  | [s] => [pyStrip s]
  | s :: t :: rest =>
    if !(pySplitWs s).isEmpty &&
        (abbreviations.any fun a => pyEndsWith (pyRstrip s) a) &&
        !(pyStrip t == "") &&
        firstCharLower (pyStrip t) then
      pyStrip (s ++ " " ++ pyStrip t) :: mergeLoop rest
    else pyStrip s :: mergeLoop (t :: rest)

/-- `LogicalTextSplitter._split_into_sentences` (`src/app.py` lines
138-161): base tokenization, abbreviation merge, drop empty strings. -/
def splitIntoSentences (text : String) : List String :=
  (mergeLoop (sentTokenize text)).filter (fun s => !(s == ""))

/-- The inner overlap loop of `_chunk_paragraph` (`src/app.py` lines
184-189): walk the tracked element list in reverse, prepending each element
(space-joined) while the running character count stays within
`chunk_overlap`, stopping at the first element that would exceed it. -/
def overlapWalk (co : Nat) : List String → String → Nat → String
  | [], ov, _ => ov
  | p :: rest, ov, chars =>
    if chars + p.length ≤ co then
      overlapWalk co rest (if ov = "" then p else p ++ " " ++ ov)
        (chars + p.length)
    else ov

/-- `overlap_text` as computed from `current_sentences` on sealing a chunk. -/
def buildOverlap (co : Nat) (sents : List String) : String :=
  overlapWalk co sents.reverse "" 0

/-- The sentence-packing loop of `_chunk_paragraph` (`src/app.py` lines
173-203).  Arguments: remaining sentences, `current_chunk`,
`current_sentences`. -/
def chunkLoop (cs co : Nat) : List String → String → List String → List String
  | [], cur, _ => if cur = "" then [] else [pyStrip cur]
  | s :: rest, cur, curS =>
    if cs < (if cur = "" then s else cur ++ " " ++ s).length ∧ cur ≠ "" then
      pyStrip cur ::
        (if 0 < co ∧ curS ≠ [] then
          (if buildOverlap co curS = "" then
            chunkLoop cs co rest s [s]
          else
            chunkLoop cs co rest (buildOverlap co curS ++ " " ++ s)
              (pySplitWs (buildOverlap co curS) ++ [s]))
        else chunkLoop cs co rest s [s])
    else
      chunkLoop cs co rest (if cur = "" then s else cur ++ " " ++ s)
        (curS ++ [s])

/-- `LogicalTextSplitter._chunk_paragraph` (`src/app.py` lines 163-203). -/
def chunkParagraph (cs co : Nat) (p : String) : List String :=
  if p.length ≤ cs then [p]
  else chunkLoop cs co (splitIntoSentences p) "" []

/-- The per-paragraph accumulation of `split_text` (`src/app.py` lines
118-121). -/
def splitTextLoop (cs co : Nat) : List String → List String
  | [] => []
  | p :: rest => chunkParagraph cs co p ++ splitTextLoop cs co rest

/-- `LogicalTextSplitter.split_text` (`src/app.py` lines 112-123). -/
def splitText (cs co : Nat) (text : String) : List String :=
  splitTextLoop cs co (splitByParagraphs text)

/-- Ghost record for one sealed chunk of `_chunk_paragraph`: the chunk
string together with the overlap text that seeded its accumulator (`ov`,
empty when none), the `current_sentences` value the overlap was built from
(`ovSrc`), the sentence whose arrival seeded the accumulator (`seedS`), and
the `current_sentences` value at sealing time (`sents`). -/
structure SealRec where
  chunk : String
  ov : String
  ovSrc : List String
  seedS : String
  sents : List String
deriving DecidableEq

/-- Instrumented copy of `chunkLoop`: same control flow and same
`current_chunk` / `current_sentences` updates, additionally threading the
ghost fields of `SealRec`.  `chunkLoopI_chunks` proves that projecting on
`SealRec.chunk` recovers `chunkLoop`. -/
def chunkLoopI (cs co : Nat) :
    List String → String → List String → String → List String → String →
      List SealRec
  | [], cur, curS, curOv, curOvSrc, curSeedS =>
    if cur = "" then []
    else [⟨pyStrip cur, curOv, curOvSrc, curSeedS, curS⟩]
  | s :: rest, cur, curS, curOv, curOvSrc, curSeedS =>
    if cs < (if cur = "" then s else cur ++ " " ++ s).length ∧ cur ≠ "" then
      ⟨pyStrip cur, curOv, curOvSrc, curSeedS, curS⟩ ::
        (if 0 < co ∧ curS ≠ [] then
          (if buildOverlap co curS = "" then
            chunkLoopI cs co rest s [s] "" curS s
          else
            chunkLoopI cs co rest (buildOverlap co curS ++ " " ++ s)
              (pySplitWs (buildOverlap co curS) ++ [s])
              (buildOverlap co curS) curS s)
        else chunkLoopI cs co rest s [s] "" curS s)
    else
      chunkLoopI cs co rest (if cur = "" then s else cur ++ " " ++ s)
        (curS ++ [s]) curOv curOvSrc (if cur = "" then s else curSeedS)

/-- The ghost trace of `_chunk_paragraph` on the sentence-packing path
(empty on the fast path, which seals no accumulator). -/
def chunkTrace (cs co : Nat) (p : String) : List SealRec :=
  if p.length ≤ cs then []
  else chunkLoopI cs co (splitIntoSentences p) "" [] "" [] ""

/-!  Basic facts about the string helpers. -/

theorem strExt {s t : String} (h : s.data = t.data) : s = t := by
  cases s
  cases t
  exact congrArg String.mk h

theorem strDataInj {a b : List Char} (h : String.mk a = String.mk b) :
    a = b := by
  injection h

theorem strLength (s : String) : s.length = s.data.length := rfl

theorem strNeEmptyIff {s : String} : s ≠ "" ↔ s.data ≠ [] := by
  constructor
  · intro h hd
    exact h (strExt hd)
  · intro h he
    exact h (by rw [he])

theorem strLengthAppend (a b : String) :
    (a ++ b).length = a.length + b.length := by
  rw [strLength, strLength, strLength, String.data_append, List.length_append]

theorem strAppendAssoc (a b c : String) :
    a ++ b ++ c = a ++ (b ++ c) := by
  apply strExt
  rw [String.data_append, String.data_append, String.data_append,
    String.data_append, List.append_assoc]

theorem strAppendNeEmptyLeft (a b : String) (h : a ≠ "") : a ++ b ≠ "" := by
  rw [strNeEmptyIff, String.data_append]
  rw [strNeEmptyIff] at h
  intro hh
  exact h (List.append_eq_nil.mp hh).1

theorem dropWhileLenLe (p : Char → Bool) :
    ∀ l : List Char, (List.dropWhile p l).length ≤ l.length := by
  intro l
  induction l with
  | nil => simp [List.dropWhile]
  | cons c cs ih =>
    by_cases h : p c
    · simp only [List.dropWhile, h]
      exact Nat.le_succ_of_le ih
    · simp [List.dropWhile, h]

theorem pyStripLenLe (s : String) : (pyStrip s).length ≤ s.length := by
  rw [strLength, strLength]
  show (pyStripData s.data).length ≤ s.data.length
  unfold pyStripData
  calc (List.dropWhile isPySpace
          ((List.dropWhile isPySpace s.data.reverse).reverse)).length
      ≤ (List.dropWhile isPySpace s.data.reverse).reverse.length :=
        dropWhileLenLe _ _
    _ = (List.dropWhile isPySpace s.data.reverse).length :=
        List.length_reverse _
    _ ≤ s.data.reverse.length := dropWhileLenLe _ _
    _ = s.data.length := List.length_reverse _

theorem joinSpCons (x : String) (xs : List String) :
    joinSp (x :: xs) = if xs = [] then x else x ++ " " ++ joinSp xs := by
  cases xs with
  | nil => simp [joinSp]
  | cons y ys => simp [joinSp]

theorem joinSpNeEmpty (xs : List String) (hne : xs ≠ [])
    (h : ∀ x ∈ xs, x ≠ "") : joinSp xs ≠ "" := by
  cases xs with
  | nil => exact absurd rfl hne
  | cons x ys =>
    rw [joinSpCons]
    by_cases hy : ys = []
    · rw [if_pos hy]
      exact h x (List.mem_cons_self x ys)
    · rw [if_neg hy]
      exact strAppendNeEmptyLeft _ _
        (strAppendNeEmptyLeft _ _ (h x (List.mem_cons_self x ys)))

theorem joinSpAppendSingle (xs : List String) (s : String) (h : xs ≠ []) :
    joinSp (xs ++ [s]) = joinSp xs ++ " " ++ s := by
  induction xs with
  | nil => exact absurd rfl h
  | cons x ys ih =>
    cases ys with
    | nil => simp [joinSp]
    | cons y zs =>
      have h2 : (y :: zs : List String) ≠ [] := by simp
      rw [List.cons_append, joinSpCons, if_neg (by simp), ih h2,
        joinSpCons x (y :: zs), if_neg (by simp)]
      simp only [strAppendAssoc]

theorem glueEmpty (x : String) : glue "" x = x := by
  simp [glue]

theorem glueNe (ov x : String) (h : ov ≠ "") : glue ov x = ov ++ " " ++ x :=
  if_neg h

theorem glueStep (ov x s : String) :
    glue ov x ++ " " ++ s = glue ov (x ++ " " ++ s) := by
  by_cases h : ov = ""
  · subst h
    rw [glueEmpty, glueEmpty]
  · rw [glueNe _ _ h, glueNe _ _ h]
    simp only [strAppendAssoc]

theorem glueNeEmpty (ov x : String) (hx : x ≠ "") : glue ov x ≠ "" := by
  by_cases h : ov = ""
  · subst h
    rwa [glueEmpty]
  · rw [glueNe _ _ h]
    exact strAppendNeEmptyLeft _ _ (strAppendNeEmptyLeft _ _ h)

theorem countLeSumLen (xs : List String) (h : ∀ x ∈ xs, x ≠ "") :
    xs.length ≤ (xs.map String.length).sum := by
  induction xs with
  | nil => simp
  | cons x ys ih =>
    have hx : 1 ≤ x.length := by
      have := (strNeEmptyIff.mp (h x (List.mem_cons_self x ys)))
      rw [strLength]
      exact Nat.succ_le_of_lt (List.length_pos.mpr this)
    have := ih (fun y hy => h y (List.mem_cons_of_mem x hy))
    simp only [List.length_cons, List.map_cons, List.sum_cons]
    omega

theorem joinSpLenBound (xs : List String) (h : xs ≠ []) :
    (joinSp xs).length + 1 ≤ (xs.map String.length).sum + xs.length := by
  induction xs with
  | nil => exact absurd rfl h
  | cons x ys ih =>
    cases ys with
    | nil => simp [joinSp]
    | cons y zs =>
      have h2 : (y :: zs : List String) ≠ [] := by simp
      have := ih h2
      rw [joinSpCons, if_neg (by simp : (y :: zs : List String) ≠ [])]
      rw [strLengthAppend, strLengthAppend]
      simp only [List.map_cons, List.sum_cons, List.length_cons] at *
      have hsp : (" " : String).length = 1 := rfl
      omega

theorem strNeEmptyOfLenPos {s : String} (h : 0 < s.length) : s ≠ "" := by
  rw [strNeEmptyIff]
  intro hd
  rw [strLength, hd] at h
  exact absurd h (by simp)

theorem pyStripAllWs (t : String) (h : ∀ c ∈ t.data, isPySpace c = true) :
    pyStrip t = "" := by
  apply strExt
  show pyStripData t.data = _
  unfold pyStripData
  have h1 : List.dropWhile isPySpace t.data.reverse = [] := by
    rw [List.dropWhile_eq_nil_iff]
    intro c hc
    exact h c (List.mem_reverse.mp hc)
  rw [h1]
  rfl

theorem cleanParasMemOfLong :
    ∀ (l : List String) (c : String), c ∈ l → 21 ≤ (pyStrip c).length →
      normWs (pyStrip c) ∈ cleanParas l := by
  intro l
  induction l with
  | nil => intro c hc; exact absurd hc (by simp)
  | cons p rest ih =>
    intro c hc hlen
    rcases List.mem_cons.mp hc with h | h
    · subst h
      have hne : pyStrip c ≠ "" := strNeEmptyOfLenPos (by omega)
      rw [show cleanParas (c :: rest) =
          normWs (pyStrip c) :: cleanParas rest from
        if_pos ⟨hne, by omega⟩]
      exact List.mem_cons_self _ _
    · have := ih c h hlen
      unfold cleanParas
      by_cases hp : pyStrip p ≠ "" ∧ 20 < (pyStrip p).length
      · rw [if_pos hp]
        exact List.mem_cons_of_mem _ this
      · rwa [if_neg hp]

theorem cleanParasMemInv :
    ∀ (l : List String) (q : String), q ∈ cleanParas l →
      ∃ c ∈ l, pyStrip c ≠ "" ∧ 20 < (pyStrip c).length ∧
        q = normWs (pyStrip c) := by
  intro l
  induction l with
  | nil => intro q hq; exact absurd hq (by simp [cleanParas])
  | cons p rest ih =>
    intro q hq
    unfold cleanParas at hq
    by_cases hp : pyStrip p ≠ "" ∧ 20 < (pyStrip p).length
    · rw [if_pos hp] at hq
      rcases List.mem_cons.mp hq with h | h
      · exact ⟨p, List.mem_cons_self _ _, hp.1, hp.2, h⟩
      · rcases ih q h with ⟨c, hc, h1, h2, h3⟩
        exact ⟨c, List.mem_cons_of_mem _ hc, h1, h2, h3⟩
    · rw [if_neg hp] at hq
      rcases ih q hq with ⟨c, hc, h1, h2, h3⟩
      exact ⟨c, List.mem_cons_of_mem _ hc, h1, h2, h3⟩

theorem splitTextLoopJoin (cs co : Nat) :
    ∀ l : List String,
      splitTextLoop cs co l = (l.map (chunkParagraph cs co)).flatten := by
  intro l
  induction l with
  | nil => simp [splitTextLoop]
  | cons p rest ih => simp [splitTextLoop, ih]

/-- C6: a paragraph whose length is at most `chunk_size` is returned as the
single chunk `[paragraph]`, unchanged, by the fast path of
`_chunk_paragraph` (no sentence segmentation is reached on this branch). -/
theorem C6_fast_path (cs co : Nat) (p : String) (h : p.length ≤ cs) :
    chunkParagraph cs co p = [p] := by
  unfold chunkParagraph
  rw [if_pos h]

/-- C6 witness: the fast path at a concrete input. -/
theorem C6_fast_path_witness :
    ("Short paragraph.").length ≤ 1000 ∧
      chunkParagraph 1000 100 "Short paragraph." = ["Short paragraph."] :=
  ⟨by decide, C6_fast_path 1000 100 "Short paragraph." (by decide)⟩

/-- C8: the pipeline is total by construction (every function of this
embedding is a total Lean function, mirroring the absence of any error
branch in `split_text`), and on empty or all-whitespace input `split_text`
returns the empty chunk sequence. -/
theorem C8_empty_input (cs co : Nat) (t : String)
    (h : ∀ c ∈ t.data, isPySpace c = true) : splitText cs co t = [] := by
  have hs : pyStrip t = "" := pyStripAllWs t h
  unfold splitText splitByParagraphs
  rw [hs]
  show splitTextLoop cs co (cleanParas (splitBlankAux [] [] [])) = []
  rfl

/-- C8 witness: a concrete whitespace-only input. -/
theorem C8_empty_input_witness :
    (∀ c ∈ ("  \n\n\t " : String).data, isPySpace c = true) ∧
      splitText 1000 100 "  \n\n\t " = [] :=
  ⟨by decide, C8_empty_input 1000 100 "  \n\n\t " (by decide)⟩

/-- C10: `split_text` is exactly the concatenation, in paragraph order, of
`_chunk_paragraph` applied independently to each paragraph produced by
`_split_by_paragraphs`; in particular no chunk spans two paragraphs and no
overlap state flows between paragraphs (each `chunkParagraph` call starts
from the empty accumulator). -/
theorem C10_paragraph_compose (cs co : Nat) (t : String) :
    splitText cs co t =
      ((splitByParagraphs t).map (chunkParagraph cs co)).flatten :=
  splitTextLoopJoin cs co (splitByParagraphs t)

/-- C7 counterexample: a text that is a single candidate paragraph of
trimmed length exactly 20 is discarded (`len(para) > 20` is strict), even
though the claim says every candidate of trimmed length at least 20 is
kept. -/
theorem C7_counterexample :
    splitBlank (pyStrip "aaaaaaaaaaaaaaaaaaaa") = ["aaaaaaaaaaaaaaaaaaaa"] ∧
      (pyStrip "aaaaaaaaaaaaaaaaaaaa").length = 20 ∧
      splitByParagraphs "aaaaaaaaaaaaaaaaaaaa" = [] := by
  refine ⟨by decide, by decide, by decide⟩

/-- C7 amended: the paragraph splitter discards exactly the candidates of
trimmed length at most 20 (the source test is `len(para) > 20`): every
candidate of trimmed length at least 21 appears (whitespace-normalized) in
the output, and every output element arises from such a candidate. -/
theorem C7_threshold_amended (text : String) :
    (∀ c ∈ splitBlank (pyStrip text), 21 ≤ (pyStrip c).length →
      normWs (pyStrip c) ∈ splitByParagraphs text) ∧
    (∀ q ∈ splitByParagraphs text, ∃ c ∈ splitBlank (pyStrip text),
      21 ≤ (pyStrip c).length ∧ q = normWs (pyStrip c)) := by
  constructor
  · intro c hc hlen
    exact cleanParasMemOfLong _ c hc hlen
  · intro q hq
    rcases cleanParasMemInv _ q hq with ⟨c, hc, _, h2, h3⟩
    exact ⟨c, hc, by omega, h3⟩

/-- C7 amended witness: a 42-character candidate is kept, at a concrete
input. -/
theorem C7_threshold_amended_witness :
    normWs (pyStrip "This paragraph has more than twenty chars.") ∈
      splitByParagraphs
        "This paragraph has more than twenty chars.\n\nshort" :=
  (C7_threshold_amended "This paragraph has more than twenty chars.\n\nshort").1
    "This paragraph has more than twenty chars." (by decide) (by decide)

/-- The amended merge condition (claim C5 as forced by the code): the
current sentence has at least one whitespace-separated token and its
rstripped text ends, as a raw string suffix, with some known abbreviation
(so e.g. `"Portugal."` matches the abbreviation `"al."`), and the stripped
next sentence is non-empty with a lower-case first character. -/
def shouldMerge (s t : String) : Bool :=
  !(pySplitWs s).isEmpty &&
    (abbreviations.any fun a => pyEndsWith (pyRstrip s) a) &&
    !(pyStrip t == "") &&
    firstCharLower (pyStrip t)

/-- The merge pass as described by the amended claim: scan left to right;
when `shouldMerge` holds and a next sentence exists, join the two with a
single space and advance past the absorbed sentence; otherwise emit the
current sentence; the final sentence is never a merge source; empty results
are excluded. -/
def mergeAmended : List String → List String
  | [] => []
  | [s] => if pyStrip s = "" then [] else [pyStrip s]
  | s :: t :: rest =>
    if shouldMerge s t then
      (if pyStrip (s ++ " " ++ pyStrip t) = "" then mergeAmended rest
       else pyStrip (s ++ " " ++ pyStrip t) :: mergeAmended rest)
    else
      (if pyStrip s = "" then mergeAmended (t :: rest)
       else pyStrip s :: mergeAmended (t :: rest))

theorem mergeLoopFilterEq :
    ∀ ss : List String,
      (mergeLoop ss).filter (fun s => !(s == "")) = mergeAmended ss
  | [] => by simp [mergeLoop, mergeAmended]
  | [s] => by
    by_cases h : pyStrip s = ""
    · simp [mergeLoop, mergeAmended, h, List.filter_cons]
    · simp [mergeLoop, mergeAmended, h, List.filter_cons]
  | s :: t :: rest => by
    have hs : (!(pySplitWs s).isEmpty &&
        (abbreviations.any fun a => pyEndsWith (pyRstrip s) a) &&
        !(pyStrip t == "") &&
        firstCharLower (pyStrip t)) = shouldMerge s t := rfl
    show ((if (!(pySplitWs s).isEmpty &&
          (abbreviations.any fun a => pyEndsWith (pyRstrip s) a) &&
          !(pyStrip t == "") &&
          firstCharLower (pyStrip t)) = true then
        pyStrip (s ++ " " ++ pyStrip t) :: mergeLoop rest
      else pyStrip s :: mergeLoop (t :: rest)).filter (fun s => !(s == ""))) =
      mergeAmended (s :: t :: rest)
    rw [hs]
    by_cases h : shouldMerge s t = true
    · rw [if_pos h]
      by_cases he : pyStrip (s ++ " " ++ pyStrip t) = ""
      · rw [List.filter_cons, if_neg (by simp [he]),
          mergeLoopFilterEq rest]
        simp [mergeAmended, h, he]
      · rw [List.filter_cons, if_pos (by simp [he]),
          mergeLoopFilterEq rest]
        simp [mergeAmended, h, he]
    · rw [if_neg h]
      by_cases he : pyStrip s = ""
      · rw [List.filter_cons, if_neg (by simp [he]),
          mergeLoopFilterEq (t :: rest)]
        simp [mergeAmended, h, he]
      · rw [List.filter_cons, if_pos (by simp [he]),
          mergeLoopFilterEq (t :: rest)]
        simp [mergeAmended, h, he]

/-- C5 counterexample: the post-processing pass merges
`"He visited Portugal."` with the following lower-case sentence, although
its trailing token `"Portugal."` matches no known abbreviation (the source
tests `rstrip().endswith(abbrev)`, a raw suffix test that `"Portugal."`
satisfies through `"al."`); so "merged exactly when the trailing token
matches a known abbreviation" is false. -/
theorem C5_counterexample :
    mergeLoop ["He visited Portugal.", "it was lovely."] =
      ["He visited Portugal. it was lovely."] ∧
    (pySplitWs "He visited Portugal.").getLast? = some "Portugal." ∧
    "Portugal." ∉ abbreviations ∧
    firstCharLower (pyStrip "it was lovely.") = true :=
  ⟨by decide, by decide, by decide, by decide⟩

/-- C5 amended: the post-processing pass over the base tokenization equals
the left-to-right scan that merges the current sentence with the next one
exactly when `shouldMerge` holds — i.e. when the current sentence's
rstripped text ends (as a string suffix) with a known abbreviation, the
sentence has at least one token, a next sentence exists, and the stripped
next sentence is non-empty with a lower-case first character; the merge
joins with a single space and advances past the absorbed sentence, no merge
is attempted for the final sentence, and empty sentences are dropped. -/
theorem C5_merge_rule_amended (ss : List String) :
    (mergeLoop ss).filter (fun s => !(s == "")) = mergeAmended ss :=
  mergeLoopFilterEq ss

/-- Declarative form of the overlap walk: starting from a running character
count, greedily accept whole elements while the running count stays within
`co`, stopping at the first element that would exceed it (which is excluded
whole, not truncated). -/
def takeOv (co : Nat) : Nat → List String → List String
  | _, [] => []
  | chars, p :: rest =>
    if chars + p.length ≤ co then p :: takeOv co (chars + p.length) rest
    else []

theorem takeOvPrefix (co : Nat) :
    ∀ (l : List String) (chars : Nat), ∃ k, takeOv co chars l = l.take k := by
  intro l
  induction l with
  | nil => intro chars; exact ⟨0, rfl⟩
  | cons p rest ih =>
    intro chars
    by_cases h : chars + p.length ≤ co
    · rcases ih (chars + p.length) with ⟨k, hk⟩
      refine ⟨k + 1, ?_⟩
      rw [show takeOv co chars (p :: rest) =
          p :: takeOv co (chars + p.length) rest from if_pos h, hk]
      rfl
    · exact ⟨0, if_neg h⟩

theorem takeOvMem (co : Nat) :
    ∀ (l : List String) (chars : Nat) (x : String),
      x ∈ takeOv co chars l → x ∈ l := by
  intro l chars x hx
  rcases takeOvPrefix co l chars with ⟨k, hk⟩
  rw [hk] at hx
  exact List.mem_of_mem_take hx

theorem takeOvSum (co : Nat) :
    ∀ (l : List String) (chars : Nat), chars ≤ co →
      takeOv co chars l = [] ∨
        chars + ((takeOv co chars l).map String.length).sum ≤ co := by
  intro l
  induction l with
  | nil => intro chars _; exact Or.inl rfl
  | cons p rest ih =>
    intro chars hchars
    by_cases h : chars + p.length ≤ co
    · right
      rw [show takeOv co chars (p :: rest) =
          p :: takeOv co (chars + p.length) rest from if_pos h]
      rcases ih (chars + p.length) h with h2 | h2
      · rw [h2]
        simpa using h
      · simp only [List.map_cons, List.sum_cons]
        omega
    · exact Or.inl (if_neg h)

theorem overlapWalkEq (co : Nat) :
    ∀ (l parts0 : List String), (∀ x ∈ l, x ≠ "") →
      (∀ x ∈ parts0, x ≠ "") →
      overlapWalk co l (joinSp parts0) ((parts0.map String.length).sum) =
        joinSp ((takeOv co ((parts0.map String.length).sum) l).reverse
          ++ parts0) := by
  intro l
  induction l with
  | nil => intro parts0 _ _; simp [overlapWalk, takeOv]
  | cons p rest ih =>
    intro parts0 hl h0
    by_cases h : (parts0.map String.length).sum + p.length ≤ co
    · have hcons : (if joinSp parts0 = "" then p
          else p ++ " " ++ joinSp parts0) = joinSp (p :: parts0) := by
        by_cases hp : parts0 = []
        · subst hp
          simp [joinSp]
        · rw [if_neg (joinSpNeEmpty parts0 hp h0), joinSpCons, if_neg hp]
      have hsum : (parts0.map String.length).sum + p.length =
          ((p :: parts0).map String.length).sum := by
        simp [Nat.add_comm]
      rw [show overlapWalk co (p :: rest) (joinSp parts0)
            ((parts0.map String.length).sum) =
          overlapWalk co rest
            (if joinSp parts0 = "" then p else p ++ " " ++ joinSp parts0)
            ((parts0.map String.length).sum + p.length) from if_pos h,
        hcons, hsum,
        ih (p :: parts0) (fun x hx => hl x (List.mem_cons_of_mem p hx)) ?_]
      · rw [show takeOv co ((parts0.map String.length).sum) (p :: rest) =
            p :: takeOv co ((parts0.map String.length).sum + p.length) rest
            from if_pos h]
        rw [← hsum] at *
        simp [List.reverse_cons, List.append_assoc]
      · intro x hx
        rcases List.mem_cons.mp hx with hx | hx
        · subst hx
          exact hl x (List.mem_cons_self x rest)
        · exact h0 x hx
    · rw [show overlapWalk co (p :: rest) (joinSp parts0)
            ((parts0.map String.length).sum) = joinSp parts0 from if_neg h,
        show takeOv co ((parts0.map String.length).sum) (p :: rest) = []
          from if_neg h]
      rfl

theorem buildOverlapEq (co : Nat) (sents : List String)
    (h : ∀ x ∈ sents, x ≠ "") :
    buildOverlap co sents = joinSp ((takeOv co 0 sents.reverse).reverse) := by
  have h0 : (∀ x ∈ ([] : List String), x ≠ "") := by simp
  have hrev : ∀ x ∈ sents.reverse, x ≠ "" :=
    fun x hx => h x (List.mem_reverse.mp hx)
  have := overlapWalkEq co sents.reverse [] hrev h0
  simpa [joinSp, buildOverlap] using this

/-- The shape of every overlap text produced by `_chunk_paragraph`: either
empty, or a space-join of a non-empty trailing segment of the tracked
element list `src`, whose summed element lengths (the joining spaces are not
counted) stay within `chunk_overlap`. -/
def ovParts (co : Nat) (ov : String) (src : List String) : Prop :=
  ov = "" ∨ ∃ parts, parts ≠ [] ∧ (∀ x ∈ parts, x ≠ "") ∧
    ov = joinSp parts ∧ (parts.map String.length).sum ≤ co ∧
    ∃ t, t ++ parts = src

theorem buildOverlapParts (co : Nat) (sents : List String)
    (h : ∀ x ∈ sents, x ≠ "") :
    ovParts co (buildOverlap co sents) sents := by
  by_cases hp : (takeOv co 0 sents.reverse).reverse = ([] : List String)
  · left
    rw [buildOverlapEq co sents h, hp]
    rfl
  · right
    refine ⟨(takeOv co 0 sents.reverse).reverse, hp, ?_, ?_, ?_, ?_⟩
    · intro x hx
      exact h x (List.mem_reverse.mp
        (takeOvMem co sents.reverse 0 x (List.mem_reverse.mp hx)))
    · exact buildOverlapEq co sents h
    · rcases takeOvSum co sents.reverse 0 (Nat.zero_le co) with h2 | h2
      · exact absurd (by rw [h2]; rfl) hp
      · calc ((takeOv co 0 sents.reverse).reverse.map String.length).sum
            = (((takeOv co 0 sents.reverse).map String.length).reverse).sum :=
              by rw [List.map_reverse]
          _ = ((takeOv co 0 sents.reverse).map String.length).sum :=
              List.sum_reverse _
          _ ≤ co := by omega
    · rcases takeOvPrefix co sents.reverse 0 with ⟨k, hk⟩
      refine ⟨(sents.reverse.drop k).reverse, ?_⟩
      rw [hk, ← List.reverse_append, List.take_append_drop,
        List.reverse_reverse]

theorem strMkRevNe (acc : List Char) (h : ¬ acc.isEmpty = true) :
    String.mk acc.reverse ≠ "" := by
  rw [strNeEmptyIff]
  show acc.reverse ≠ []
  simp only [ne_eq, List.reverse_eq_nil_iff]
  intro hacc
  exact h (by rw [hacc]; rfl)

theorem splitWsAuxNe :
    ∀ (l acc : List Char), ∀ w ∈ splitWsAux l acc, w ≠ "" := by
  intro l
  induction l with
  | nil =>
    intro acc w hw
    by_cases h : acc.isEmpty
    · simp [splitWsAux, h] at hw
    · simp only [splitWsAux, h, if_false, Bool.false_eq_true,
        List.mem_singleton] at hw
      subst hw
      exact strMkRevNe acc h
  | cons c cs ih =>
    intro acc w hw
    by_cases hc : isPySpace c = true
    · by_cases h : acc.isEmpty
      · simp only [splitWsAux, hc, h, if_true] at hw
        exact ih [] w hw
      · simp only [splitWsAux, hc, h, if_true, if_false,
          Bool.false_eq_true, List.mem_cons] at hw
        rcases hw with rfl | hw2
        · exact strMkRevNe acc h
        · exact ih [] w hw2
    · simp only [splitWsAux, hc, Bool.false_eq_true, if_false] at hw
      exact ih (c :: acc) w hw

theorem pySplitWsNe (s : String) : ∀ w ∈ pySplitWs s, w ≠ "" :=
  fun w hw => splitWsAuxNe s.data [] w hw

theorem splitIntoSentencesNe (text : String) :
    ∀ s ∈ splitIntoSentences text, s ≠ "" := by
  intro s hs
  have := List.of_mem_filter hs
  simpa using this

theorem chunkLoopIChunks (cs co : Nat) :
    ∀ (ss : List String) (cur : String) (curS : List String)
      (curOv : String) (curOvSrc : List String) (curSeedS : String),
      (chunkLoopI cs co ss cur curS curOv curOvSrc curSeedS).map
          SealRec.chunk =
        chunkLoop cs co ss cur curS := by
  intro ss
  induction ss with
  | nil =>
    intro cur curS curOv curOvSrc curSeedS
    by_cases h : cur = ""
    · simp [chunkLoopI, chunkLoop, h]
    · simp [chunkLoopI, chunkLoop, h]
  | cons s rest ih =>
    intro cur curS curOv curOvSrc curSeedS
    by_cases h : cs < (if cur = "" then s else cur ++ " " ++ s).length ∧
        cur ≠ ""
    · by_cases h2 : 0 < co ∧ curS ≠ []
      · by_cases h3 : buildOverlap co curS = ""
        · simp only [chunkLoopI, chunkLoop]
          rw [if_pos h, if_pos h2, if_pos h3, if_pos h, if_pos h2, if_pos h3,
            List.map_cons, ih]
        · simp only [chunkLoopI, chunkLoop]
          rw [if_pos h, if_pos h2, if_neg h3, if_pos h, if_pos h2, if_neg h3,
            List.map_cons, ih]
      · simp only [chunkLoopI, chunkLoop]
        rw [if_pos h, if_neg h2, if_pos h, if_neg h2, List.map_cons, ih]
    · simp only [chunkLoopI, chunkLoop]
      rw [if_neg h, if_neg h, ih]

theorem chunkTraceChunks (cs co : Nat) (p : String) (h : cs < p.length) :
    (chunkTrace cs co p).map SealRec.chunk = chunkParagraph cs co p := by
  unfold chunkTrace chunkParagraph
  rw [if_neg (by omega), if_neg (by omega)]
  exact chunkLoopIChunks cs co _ _ _ _ _ _

theorem chunkLoopIInv (cs co : Nat) (ss0 : List String)
    (hne0 : ∀ s ∈ ss0, s ≠ "") :
    ∀ (ss : List String) (cur : String) (curS : List String)
      (curOv : String) (curOvSrc : List String) (curSeedS : String),
      (∀ s ∈ ss, s ∈ ss0) →
      (∀ x ∈ curS, x ≠ "") →
      (cur = "" → curOv = "") →
      (cur ≠ "" → (cur.length ≤ cs ∨ cur = glue curOv curSeedS) ∧
        curSeedS ∈ ss0) →
      ovParts co curOv curOvSrc →
      ∀ r ∈ chunkLoopI cs co ss cur curS curOv curOvSrc curSeedS,
        (r.chunk.length ≤ cs ∨
          (r.chunk = pyStrip (glue r.ov r.seedS) ∧ r.seedS ∈ ss0)) ∧
        ovParts co r.ov r.ovSrc := by
  intro ss
  induction ss with
  | nil =>
    intro cur curS curOv curOvSrc curSeedS hss hcurS hemp hcur hovp r hr
    by_cases h : cur = ""
    · simp [chunkLoopI, h] at hr
    · simp only [chunkLoopI, if_neg h, List.mem_singleton] at hr
      subst hr
      refine ⟨?_, hovp⟩
      rcases (hcur h).1 with hlen | hglue
      · exact Or.inl (le_trans (pyStripLenLe cur) hlen)
      · exact Or.inr ⟨by rw [← hglue], (hcur h).2⟩
  | cons s rest ih =>
    intro cur curS curOv curOvSrc curSeedS hss hcurS hemp hcur hovp r hr
    have hs0 : s ∈ ss0 := hss s (List.mem_cons_self s rest)
    have hrest : ∀ x ∈ rest, x ∈ ss0 :=
      fun x hx => hss x (List.mem_cons_of_mem s hx)
    have hsne : s ≠ "" := hne0 s hs0
    by_cases h : cs < (if cur = "" then s else cur ++ " " ++ s).length ∧
        cur ≠ ""
    · simp only [chunkLoopI] at hr
      rw [if_pos h] at hr
      rcases List.mem_cons.mp hr with rfl | hr2
      · refine ⟨?_, hovp⟩
        rcases (hcur h.2).1 with hlen | hglue
        · exact Or.inl (le_trans (pyStripLenLe cur) hlen)
        · exact Or.inr ⟨by rw [← hglue], (hcur h.2).2⟩
      · by_cases h2 : 0 < co ∧ curS ≠ []
        · by_cases h3 : buildOverlap co curS = ""
          · rw [if_pos h2, if_pos h3] at hr2
            refine ih s [s] "" curS s hrest ?_ (fun _ => rfl) ?_
              (Or.inl rfl) r hr2
            · intro x hx
              rcases List.mem_singleton.mp hx with rfl
              exact hsne
            · intro _
              exact ⟨Or.inr (glueEmpty s).symm, hs0⟩
          · rw [if_pos h2, if_neg h3] at hr2
            refine ih (buildOverlap co curS ++ " " ++ s)
              (pySplitWs (buildOverlap co curS) ++ [s])
              (buildOverlap co curS) curS s hrest ?_ ?_ ?_
              (buildOverlapParts co curS hcurS) r hr2
            · intro x hx
              rcases List.mem_append.mp hx with hx | hx
              · exact pySplitWsNe _ x hx
              · rcases List.mem_singleton.mp hx with rfl
                exact hsne
            · intro he
              exact absurd he
                (strAppendNeEmptyLeft _ s (strAppendNeEmptyLeft _ " " h3))
            · intro _
              exact ⟨Or.inr (glueNe _ s h3).symm, hs0⟩
        · rw [if_neg h2] at hr2
          refine ih s [s] "" curS s hrest ?_ (fun _ => rfl) ?_
            (Or.inl rfl) r hr2
          · intro x hx
            rcases List.mem_singleton.mp hx with rfl
            exact hsne
          · intro _
            exact ⟨Or.inr (glueEmpty s).symm, hs0⟩
    · simp only [chunkLoopI] at hr
      rw [if_neg h] at hr
      refine ih (if cur = "" then s else cur ++ " " ++ s) (curS ++ [s])
        curOv curOvSrc (if cur = "" then s else curSeedS) hrest ?_ ?_ ?_
        hovp r hr
      · intro x hx
        rcases List.mem_append.mp hx with hx | hx
        · exact hcurS x hx
        · rcases List.mem_singleton.mp hx with rfl
          exact hsne
      · intro he
        by_cases hc : cur = ""
        · rw [if_pos hc] at he
          exact absurd he hsne
        · rw [if_neg hc] at he
          exact absurd he
            (strAppendNeEmptyLeft _ s (strAppendNeEmptyLeft _ " " hc))
      · intro _
        by_cases hc : cur = ""
        · rw [if_pos hc, if_pos hc]
          refine ⟨Or.inr ?_, hs0⟩
          rw [hemp hc, glueEmpty]
        · rw [if_neg hc, if_neg hc]
          have hlen : (cur ++ " " ++ s).length ≤ cs := by
            by_contra hlt
            exact h ⟨by rw [if_neg hc]; omega, hc⟩
          exact ⟨Or.inl hlen, (hcur hc).2⟩

/-- C1 counterexample: with `chunk_size = 22`, `chunk_overlap = 14` (both
positive) the paragraph `"Aa bb. Cc dd. Eeeeeeeeee. Ff."` produces a chunk
of length 25 > 22 that is not a single sentence: it consists of the overlap
seeded from the previous chunk (two whole sentences) plus the triggering
sentence, and the accumulator seeded this way is never checked against
`chunk_size`. -/
theorem C1_counterexample :
    chunkParagraph 22 14 "Aa bb. Cc dd. Eeeeeeeeee. Ff." =
      ["Aa bb. Cc dd.", "Aa bb. Cc dd. Eeeeeeeeee.",
       "dd. Eeeeeeeeee. Ff."] ∧
    ("Aa bb. Cc dd. Eeeeeeeeee." : String).length = 25 ∧ 22 < 25 ∧
    splitIntoSentences "Aa bb. Cc dd. Eeeeeeeeee. Ff." =
      ["Aa bb.", "Cc dd.", "Eeeeeeeeee.", "Ff."] ∧
    "Aa bb. Cc dd. Eeeeeeeeee." ∉
      splitIntoSentences "Aa bb. Cc dd. Eeeeeeeeee. Ff." ∧
    (splitIntoSentences "Aa bb. Cc dd. Eeeeeeeeee.").length = 3 := by
  refine ⟨by decide, by decide, by decide, by decide, by decide, by decide⟩

/-- C1 amended: every chunk produced by `_chunk_paragraph` either has
length at most `chunk_size`, or is exactly (the strip of) its accumulator's
initial seed — the overlap carried from the previous chunk (a space-join of
elements whose summed lengths are at most `chunk_overlap`), glued to one
single sentence of the paragraph; such seed-only chunks (an oversized
single sentence, or an oversized overlap-plus-sentence seed) are the only
chunks that may exceed `chunk_size`: a chunk extended by the greedy append
step never does. -/
theorem C1_length_bound_amended (cs co : Nat) (p c : String)
    (hc : c ∈ chunkParagraph cs co p) :
    c.length ≤ cs ∨
      ∃ r ∈ chunkTrace cs co p, r.chunk = c ∧
        c = pyStrip (glue r.ov r.seedS) ∧
        r.seedS ∈ splitIntoSentences p ∧ ovParts co r.ov r.ovSrc := by
  by_cases hp : p.length ≤ cs
  · unfold chunkParagraph at hc
    rw [if_pos hp] at hc
    rcases List.mem_singleton.mp hc with rfl
    exact Or.inl hp
  · have hproj := chunkTraceChunks cs co p (by omega)
    rw [← hproj] at hc
    rcases List.mem_map.mp hc with ⟨r, hr, hrc⟩
    have hrt : r ∈ chunkLoopI cs co (splitIntoSentences p) "" [] "" [] "" := by
      unfold chunkTrace at hr
      rw [if_neg hp] at hr
      exact hr
    have hinv := chunkLoopIInv cs co (splitIntoSentences p)
      (splitIntoSentencesNe p) (splitIntoSentences p) "" [] "" [] ""
      (fun s hs => hs) (by simp) (fun _ => rfl)
      (fun hne => absurd rfl hne) (Or.inl rfl) r hrt
    rcases hinv.1 with hlen | ⟨heq, hmem⟩
    · exact Or.inl (hrc ▸ hlen)
    · exact Or.inr ⟨r, hr, hrc, by rw [← hrc, heq], hmem, hinv.2⟩

/-- C1 amended witness: the amended bound instantiated at the oversized
chunk of the counterexample run. -/
theorem C1_length_bound_amended_witness :
    ("Aa bb. Cc dd. Eeeeeeeeee." : String).length ≤ 22 ∨
      ∃ r ∈ chunkTrace 22 14 "Aa bb. Cc dd. Eeeeeeeeee. Ff.",
        r.chunk = "Aa bb. Cc dd. Eeeeeeeeee." ∧
        "Aa bb. Cc dd. Eeeeeeeeee." = pyStrip (glue r.ov r.seedS) ∧
        r.seedS ∈ splitIntoSentences "Aa bb. Cc dd. Eeeeeeeeee. Ff." ∧
        ovParts 14 r.ov r.ovSrc :=
  C1_length_bound_amended 22 14 "Aa bb. Cc dd. Eeeeeeeeee. Ff."
    "Aa bb. Cc dd. Eeeeeeeeee." (by decide)

/-- C2 counterexample: in the run of `_chunk_paragraph` with
`chunk_size = 22`, `chunk_overlap = 14`, the overlap carried from the
second chunk into the third is `"dd. Eeeeeeeeee."` — the shared text (a
suffix of chunk 2 and a prefix of chunk 3) — and its length is 15 > 14:
the walk counts only sentence lengths, not the joining spaces, and here it
also picks up the word fragment `"dd."` from the previous overlap's word
list. -/
theorem C2_counterexample :
    chunkParagraph 22 14 "Aa bb. Cc dd. Eeeeeeeeee. Ff." =
      ["Aa bb. Cc dd.", "Aa bb. Cc dd. Eeeeeeeeee.",
       "dd. Eeeeeeeeee. Ff."] ∧
    (chunkTrace 22 14 "Aa bb. Cc dd. Eeeeeeeeee. Ff.").map SealRec.ov =
      ["", "Aa bb. Cc dd.", "dd. Eeeeeeeeee."] ∧
    ("dd. Eeeeeeeeee." : String).length = 15 ∧ 14 < 15 ∧
    ("dd. Eeeeeeeeee." : String).data.isPrefixOf
      ("dd. Eeeeeeeeee. Ff." : String).data = true ∧
    ("dd. Eeeeeeeeee." : String).data.isSuffixOf
      ("Aa bb. Cc dd. Eeeeeeeeee." : String).data = true := by
  refine ⟨by decide, by decide, by decide, by decide, by decide, by decide⟩

/-- C2 amended: every overlap carried between consecutive chunks is a
space-join of a non-empty trailing segment of the tracked element list of
the sealed chunk (which lists that chunk's sentences only until the first
overlap-seeded chunk; afterwards it holds the words of the previous overlap
plus the sentences added since); the summed element lengths — not counting
the joining spaces — are at most `chunk_overlap`, so the overlap string
itself is shorter than `2 * chunk_overlap`. -/
theorem C2_overlap_bound_amended (cs co : Nat) (p : String) (r : SealRec)
    (hr : r ∈ chunkTrace cs co p) :
    r.ov = "" ∨
      ∃ parts, parts ≠ [] ∧ (∀ x ∈ parts, x ≠ "") ∧ r.ov = joinSp parts ∧
        (parts.map String.length).sum ≤ co ∧ (∃ t, t ++ parts = r.ovSrc) ∧
        r.ov.length + 1 ≤ 2 * co := by
  by_cases hp : p.length ≤ cs
  · unfold chunkTrace at hr
    rw [if_pos hp] at hr
    exact absurd hr (by simp)
  · have hrt : r ∈ chunkLoopI cs co (splitIntoSentences p) "" [] "" [] "" := by
      unfold chunkTrace at hr
      rw [if_neg hp] at hr
      exact hr
    have hinv := chunkLoopIInv cs co (splitIntoSentences p)
      (splitIntoSentencesNe p) (splitIntoSentences p) "" [] "" [] ""
      (fun s hs => hs) (by simp) (fun _ => rfl)
      (fun hne => absurd rfl hne) (Or.inl rfl) r hrt
    rcases hinv.2 with hov | ⟨parts, hne, hnee, hjoin, hsum, hsuf⟩
    · exact Or.inl hov
    · right
      refine ⟨parts, hne, hnee, hjoin, hsum, hsuf, ?_⟩
      have hb := joinSpLenBound parts hne
      have hcnt := countLeSumLen parts hnee
      rw [hjoin]
      omega

/-- C2 amended witness: the amended overlap bound instantiated at the third
record of the counterexample run. -/
theorem C2_overlap_bound_amended_witness :
    (SealRec.mk "dd. Eeeeeeeeee. Ff." "dd. Eeeeeeeeee."
        ["Aa", "bb.", "Cc", "dd.", "Eeeeeeeeee."] "Ff."
        ["dd.", "Eeeeeeeeee.", "Ff."]).ov = "" ∨
      ∃ parts, parts ≠ [] ∧ (∀ x ∈ parts, x ≠ "") ∧
        (SealRec.mk "dd. Eeeeeeeeee. Ff." "dd. Eeeeeeeeee."
          ["Aa", "bb.", "Cc", "dd.", "Eeeeeeeeee."] "Ff."
          ["dd.", "Eeeeeeeeee.", "Ff."]).ov = joinSp parts ∧
        (parts.map String.length).sum ≤ 14 ∧
        (∃ t, t ++ parts =
          (SealRec.mk "dd. Eeeeeeeeee. Ff." "dd. Eeeeeeeeee."
            ["Aa", "bb.", "Cc", "dd.", "Eeeeeeeeee."] "Ff."
            ["dd.", "Eeeeeeeeee.", "Ff."]).ovSrc) ∧
        (SealRec.mk "dd. Eeeeeeeeee. Ff." "dd. Eeeeeeeeee."
          ["Aa", "bb.", "Cc", "dd.", "Eeeeeeeeee."] "Ff."
          ["dd.", "Eeeeeeeeee.", "Ff."]).ov.length + 1 ≤ 2 * 14 :=
  C2_overlap_bound_amended 22 14 "Aa bb. Cc dd. Eeeeeeeeee. Ff." _ (by decide)

/-- C3: the claim describes the clear intent (the variable walked in
reverse is named `current_sentences` and the spec calls it "the sealed
chunk's sentence list"), but after the first overlap-seeded chunk the code
stores `overlap_text.split()` — the *words* of the previous overlap — in
`current_sentences` (`src/app.py` line 192).  At the failing input, sealing
the second chunk `"Aa bb. Cc dd. Eeeeeeeeee."` walks the word list
`["Aa", "bb.", "Cc", "dd.", "Eeeeeeeeee."]` and carries the overlap
`"dd. Eeeeeeeeee."` (containing the sentence fragment `"dd."`), while the
claimed walk over that chunk's sentence list yields `"Eeeeeeeeee."`. -/
theorem C3_code_behavior :
    splitIntoSentences "Aa bb. Cc dd. Eeeeeeeeee." =
      ["Aa bb.", "Cc dd.", "Eeeeeeeeee."] ∧
    buildOverlap 14 ["Aa bb.", "Cc dd.", "Eeeeeeeeee."] = "Eeeeeeeeee." ∧
    (chunkTrace 22 14 "Aa bb. Cc dd. Eeeeeeeeee. Ff.").map SealRec.chunk =
      ["Aa bb. Cc dd.", "Aa bb. Cc dd. Eeeeeeeeee.",
       "dd. Eeeeeeeeee. Ff."] ∧
    (chunkTrace 22 14 "Aa bb. Cc dd. Eeeeeeeeee. Ff.").map SealRec.ov =
      ["", "Aa bb. Cc dd.", "dd. Eeeeeeeeee."] ∧
    (chunkTrace 22 14 "Aa bb. Cc dd. Eeeeeeeeee. Ff.").map SealRec.ovSrc =
      [[], ["Aa bb.", "Cc dd."],
       ["Aa", "bb.", "Cc", "dd.", "Eeeeeeeeee."]] ∧
    ("dd. Eeeeeeeeee." : String) ≠ "Eeeeeeeeee." := by
  refine ⟨by decide, by decide, by decide, by decide, by decide, by decide⟩

theorem chunkLoopCoverage (cs co : Nat) :
    ∀ (ss : List String) (cur : String) (curS : List String)
      (ov : String) (seg : List String),
      (∀ x ∈ ss, x ≠ "") →
      (∀ x ∈ seg, x ≠ "") →
      cur = glue ov (joinSp seg) →
      (seg = [] → ov = "") →
      ∃ (segs : List (List String)) (ovs : List String),
        segs.flatten = seg ++ ss ∧
        ovs.length = segs.length ∧
        chunkLoop cs co ss cur curS =
          List.zipWith (fun o g => pyStrip (glue o (joinSp g))) ovs segs ∧
        (ovs = [] ∨ ovs.head? = some ov) ∧
        (∀ g ∈ segs, g ≠ []) := by
  intro ss
  induction ss with
  | nil =>
    intro cur curS ov seg hss hseg hcur hov
    by_cases hs : seg = []
    · subst hs
      have hove := hov rfl
      subst hove
      have hc : cur = "" := by rw [hcur]; rfl
      refine ⟨[], [], by simp, rfl, ?_, Or.inl rfl, by simp⟩
      simp [chunkLoop, hc]
    · have hc : cur ≠ "" := by
        rw [hcur]
        exact glueNeEmpty ov _ (joinSpNeEmpty seg hs hseg)
      refine ⟨[seg], [ov], by simp, rfl, ?_, Or.inr rfl, ?_⟩
      · simp only [chunkLoop, if_neg hc, List.zipWith_cons_cons,
          List.zipWith_nil_right]
        rw [hcur]
      · intro g hg
        rcases List.mem_singleton.mp hg with rfl
        exact hs
  | cons s rest ih =>
    intro cur curS ov seg hss hseg hcur hov
    have hsne : s ≠ "" := hss s (List.mem_cons_self s rest)
    have hrest : ∀ x ∈ rest, x ≠ "" :=
      fun x hx => hss x (List.mem_cons_of_mem s hx)
    by_cases h : cs < (if cur = "" then s else cur ++ " " ++ s).length ∧
        cur ≠ ""
    · have hsegne : seg ≠ [] := by
        intro habs
        have := hov habs
        subst habs
        subst this
        exact h.2 (by rw [hcur]; rfl)
      have hone : ∀ x ∈ [s], x ≠ "" := by
        intro x hx
        rcases List.mem_singleton.mp hx with rfl
        exact hsne
      have hgo : ∀ (ov2 : String) (curS2 : List String),
          glue ov2 s = glue ov2 (joinSp [s]) := by
        intro ov2 _
        rfl
      by_cases h2 : 0 < co ∧ curS ≠ []
      · by_cases h3 : buildOverlap co curS = ""
        · rcases ih s [s] "" [s] hrest hone (glueEmpty s).symm
            (by intro habs; exact absurd habs (by simp)) with
            ⟨segs, ovs, hflat, hlen, hres, hhead, hne⟩
          refine ⟨seg :: segs, ov :: ovs, ?_, by simp [hlen], ?_,
            Or.inr rfl, ?_⟩
          · rw [List.flatten_cons, hflat]
            rfl
          · simp only [chunkLoop]
            rw [if_pos h, if_pos h2, if_pos h3, List.zipWith_cons_cons,
              hres, hcur]
          · intro g hg
            rcases List.mem_cons.mp hg with rfl | hg2
            · exact hsegne
            · exact hne g hg2
        · rcases ih (buildOverlap co curS ++ " " ++ s)
            (pySplitWs (buildOverlap co curS) ++ [s])
            (buildOverlap co curS) [s] hrest hone
            (glueNe _ s h3).symm
            (by intro habs; exact absurd habs (by simp)) with
            ⟨segs, ovs, hflat, hlen, hres, hhead, hne⟩
          refine ⟨seg :: segs, ov :: ovs, ?_, by simp [hlen], ?_,
            Or.inr rfl, ?_⟩
          · rw [List.flatten_cons, hflat]
            rfl
          · simp only [chunkLoop]
            rw [if_pos h, if_pos h2, if_neg h3, List.zipWith_cons_cons,
              hres, hcur]
          · intro g hg
            rcases List.mem_cons.mp hg with rfl | hg2
            · exact hsegne
            · exact hne g hg2
      · rcases ih s [s] "" [s] hrest hone (glueEmpty s).symm
          (by intro habs; exact absurd habs (by simp)) with
          ⟨segs, ovs, hflat, hlen, hres, hhead, hne⟩
        refine ⟨seg :: segs, ov :: ovs, ?_, by simp [hlen], ?_,
          Or.inr rfl, ?_⟩
        · rw [List.flatten_cons, hflat]
          rfl
        · simp only [chunkLoop]
          rw [if_pos h, if_neg h2, List.zipWith_cons_cons, hres, hcur]
        · intro g hg
          rcases List.mem_cons.mp hg with rfl | hg2
          · exact hsegne
          · exact hne g hg2
    · have hsegapp : ∀ x ∈ seg ++ [s], x ≠ "" := by
        intro x hx
        rcases List.mem_append.mp hx with hx | hx
        · exact hseg x hx
        · rcases List.mem_singleton.mp hx with rfl
          exact hsne
      have hcur' : (if cur = "" then s else cur ++ " " ++ s) =
          glue ov (joinSp (seg ++ [s])) := by
        by_cases hc : cur = ""
        · have hs0 : seg = [] := by
            by_contra habs
            exact (hcur ▸ glueNeEmpty ov _ (joinSpNeEmpty seg habs hseg)) hc
          subst hs0
          have := hov rfl
          subst this
          rw [if_pos hc, glueEmpty]
          rfl
        · have hs0 : seg ≠ [] := by
            intro habs
            have := hov habs
            subst habs
            subst this
            exact hc (by rw [hcur]; rfl)
          rw [if_neg hc, hcur, glueStep, joinSpAppendSingle seg s hs0]
      rcases ih (if cur = "" then s else cur ++ " " ++ s) (curS ++ [s]) ov
        (seg ++ [s]) hrest hsegapp hcur'
        (by intro habs; exact absurd habs (by simp)) with
        ⟨segs, ovs, hflat, hlen, hres, hhead, hne⟩
      refine ⟨segs, ovs, ?_, hlen, ?_, hhead, hne⟩
      · rw [hflat, List.append_assoc]
        rfl
      · simp only [chunkLoop]
        rw [if_neg h, hres]

/-- C4: coverage — on the fast path the single chunk is the paragraph
itself; otherwise the chunk list decomposes as `zipWith` of overlap
prefixes and sentence segments whose concatenation (in order, with the
first chunk carrying no overlap) is exactly the paragraph's sentence
sequence: removing from each chunk its leading overlap and concatenating
reconstructs the sentence sequence with no sentence omitted or
reordered. -/
theorem C4_coverage (cs co : Nat) (p : String) :
    (p.length ≤ cs ∧ chunkParagraph cs co p = [p]) ∨
    ∃ (segs : List (List String)) (ovs : List String),
      segs.flatten = splitIntoSentences p ∧
      ovs.length = segs.length ∧
      chunkParagraph cs co p =
        List.zipWith (fun o g => pyStrip (glue o (joinSp g))) ovs segs ∧
      (ovs = [] ∨ ovs.head? = some "") ∧
      (∀ g ∈ segs, g ≠ []) := by
  by_cases hp : p.length ≤ cs
  · exact Or.inl ⟨hp, by unfold chunkParagraph; rw [if_pos hp]⟩
  · right
    rcases chunkLoopCoverage cs co (splitIntoSentences p) "" [] "" []
      (splitIntoSentencesNe p) (by simp) (by rfl) (fun _ => rfl) with
      ⟨segs, ovs, hflat, hlen, hres, hhead, hne⟩
    refine ⟨segs, ovs, by simpa using hflat, hlen, ?_, hhead, hne⟩
    unfold chunkParagraph
    rw [if_neg hp]
    exact hres

theorem normWsAuxOnlySpace :
    ∀ (l : List Char) (b : Bool) (c : Char), c ∈ normWsAux b l →
      isPySpace c = true → c = ' ' := by
  intro l
  induction l with
  | nil => intro b c hc; simp [normWsAux] at hc
  | cons x xs ih =>
    intro b c hc hws
    by_cases hx : isPySpace x = true
    · by_cases hb : b = true
      · rw [show normWsAux b (x :: xs) = normWsAux true xs from by
          rw [hb]; simp [normWsAux, hx]] at hc
        exact ih true c hc hws
      · rw [show normWsAux b (x :: xs) = ' ' :: normWsAux true xs from by
          rw [Bool.eq_false_iff.mpr hb]; simp [normWsAux, hx]] at hc
        rcases List.mem_cons.mp hc with rfl | hc2
        · rfl
        · exact ih true c hc2 hws
    · rw [show normWsAux b (x :: xs) = x :: normWsAux false xs from by
        cases b <;> simp [normWsAux, hx]] at hc
      rcases List.mem_cons.mp hc with rfl | hc2
      · exact absurd hws (by simp [hx])
      · exact ih false c hc2 hws

theorem normWsAuxNoNl (l : List Char) (b : Bool) :
    '\n' ∉ normWsAux b l := by
  intro hmem
  have := normWsAuxOnlySpace l b '\n' hmem (by decide)
  exact absurd this (by decide)

theorem normWsAuxIdem :
    ∀ l : List Char,
      normWsAux false (normWsAux false l) = normWsAux false l ∧
      normWsAux true (normWsAux true l) = normWsAux true l := by
  intro l
  induction l with
  | nil => exact ⟨rfl, rfl⟩
  | cons x xs ih =>
    constructor
    · by_cases hx : isPySpace x = true
      · rw [show normWsAux false (x :: xs) = ' ' :: normWsAux true xs from by
          simp [normWsAux, hx]]
        rw [show normWsAux false (' ' :: normWsAux true xs) =
            ' ' :: normWsAux true (normWsAux true xs) from by
          simp [normWsAux, isPySpace]]
        rw [ih.2]
      · rw [show normWsAux false (x :: xs) = x :: normWsAux false xs from by
          simp [normWsAux, hx]]
        rw [show normWsAux false (x :: normWsAux false xs) =
            x :: normWsAux false (normWsAux false xs) from by
          simp [normWsAux, hx]]
        rw [ih.1]
    · by_cases hx : isPySpace x = true
      · rw [show normWsAux true (x :: xs) = normWsAux true xs from by
          simp [normWsAux, hx]]
        exact ih.2
      · rw [show normWsAux true (x :: xs) = x :: normWsAux false xs from by
          simp [normWsAux, hx]]
        rw [show normWsAux true (x :: normWsAux false xs) =
            x :: normWsAux false (normWsAux false xs) from by
          simp [normWsAux, hx]]
        rw [ih.1]

theorem normWsAuxLast :
    ∀ (l : List Char) (b : Bool) (d : Char), l.getLast? = some d →
      isPySpace d = false → (normWsAux b l).getLast? = some d := by
  intro l
  induction l with
  | nil => intro b d hd; simp at hd
  | cons x xs ih =>
    intro b d hd hdws
    cases xs with
    | nil =>
      simp only [List.getLast?_singleton, Option.some.injEq] at hd
      subst hd
      cases b <;> simp [normWsAux, hdws]
    | cons y ys =>
      have hd2 : (y :: ys).getLast? = some d := by
        rwa [List.getLast?_cons_cons] at hd
      have hne : normWsAux true (y :: ys) ≠ [] ∨ True := Or.inr trivial
      by_cases hx : isPySpace x = true
      · by_cases hb : b = true
        · rw [show normWsAux b (x :: y :: ys) = normWsAux true (y :: ys)
              from by rw [hb]; simp [normWsAux, hx]]
          exact ih true d hd2 hdws
        · rw [show normWsAux b (x :: y :: ys) =
              ' ' :: normWsAux true (y :: ys) from by
            rw [Bool.eq_false_iff.mpr hb]; simp [normWsAux, hx]]
          have htail := ih true d hd2 hdws
          have hnn : normWsAux true (y :: ys) ≠ [] := by
            intro habs
            rw [habs] at htail
            simp at htail
          cases hcase : normWsAux true (y :: ys) with
          | nil => exact absurd hcase hnn
          | cons z zs =>
            rw [hcase] at htail
            rw [List.getLast?_cons_cons]
            exact htail
      · rw [show normWsAux b (x :: y :: ys) =
            x :: normWsAux false (y :: ys) from by
          cases b <;> simp [normWsAux, hx]]
        have htail := ih false d hd2 hdws
        have hnn : normWsAux false (y :: ys) ≠ [] := by
          intro habs
          rw [habs] at htail
          simp at htail
        cases hcase : normWsAux false (y :: ys) with
        | nil => exact absurd hcase hnn
        | cons z zs =>
          rw [hcase] at htail
          rw [List.getLast?_cons_cons]
          exact htail

theorem dropWhileHeadNot (p : Char → Bool) :
    ∀ l : List Char, (l.dropWhile p) = [] ∨
      ∃ c cs, l.dropWhile p = c :: cs ∧ p c = false := by
  intro l
  induction l with
  | nil => exact Or.inl rfl
  | cons x xs ih =>
    by_cases hx : p x = true
    · rw [List.dropWhile_cons_of_pos hx]
      exact ih
    · rw [List.dropWhile_cons_of_neg (by simpa using hx)]
      exact Or.inr ⟨x, xs, rfl, by simpa using hx⟩

theorem dropWhileLast (p : Char → Bool) :
    ∀ l : List Char, l.dropWhile p = [] ∨
      (l.dropWhile p).getLast? = l.getLast? := by
  intro l
  induction l with
  | nil => exact Or.inl rfl
  | cons x xs ih =>
    by_cases hx : p x = true
    · rw [List.dropWhile_cons_of_pos hx]
      rcases ih with h | h
      · exact Or.inl h
      · cases xs with
        | nil => exact Or.inl rfl
        | cons y ys =>
          right
          rw [h, List.getLast?_cons_cons]
    · rw [List.dropWhile_cons_of_neg (by simpa using hx)]
      exact Or.inr rfl

theorem dropWhileHeadNoop (p : Char → Bool) :
    ∀ l : List Char, (∀ c cs, l = c :: cs → p c = false) →
      l.dropWhile p = l := by
  intro l hl
  cases l with
  | nil => rfl
  | cons c cs =>
    exact List.dropWhile_cons_of_neg (by simp [hl c cs rfl])

theorem stripDataNoop (l : List Char)
    (hh : ∀ c cs, l = c :: cs → isPySpace c = false)
    (hl : ∀ d, l.getLast? = some d → isPySpace d = false) :
    pyStripData l = l := by
  unfold pyStripData
  have h1 : List.dropWhile isPySpace l.reverse = l.reverse := by
    apply dropWhileHeadNoop
    intro c cs hrev
    apply hl
    rw [← List.head?_reverse, hrev]
    rfl
  rw [h1, List.reverse_reverse]
  apply dropWhileHeadNoop
  exact hh

theorem stripDataHeadLast (l : List Char) :
    pyStripData l = [] ∨
      ((∃ c cs, pyStripData l = c :: cs ∧ isPySpace c = false) ∧
       (∃ d, (pyStripData l).getLast? = some d ∧ isPySpace d = false)) := by
  unfold pyStripData
  set m := List.dropWhile isPySpace l.reverse with hm
  rcases dropWhileHeadNot isPySpace m.reverse with h | ⟨c, cs, hcons, hcws⟩
  · exact Or.inl h
  · right
    refine ⟨⟨c, cs, hcons, hcws⟩, ?_⟩
    rcases dropWhileHeadNot isPySpace l.reverse with h0 | ⟨d, ds, hd, hdws⟩
    · rw [← hm] at h0
      rw [h0] at hcons
      simp at hcons
    · rw [← hm] at hd
      have hlast : (List.dropWhile isPySpace m.reverse).getLast? =
          m.reverse.getLast? := by
        rcases dropWhileLast isPySpace m.reverse with h2 | h2
        · rw [h2] at hcons
          exact absurd hcons (by simp)
        · exact h2
      refine ⟨d, ?_, hdws⟩
      rw [hlast, List.getLast?_reverse, hd]
      rfl

theorem splitByParagraphsNorm (t : String) :
    ∀ q ∈ splitByParagraphs t,
      q ≠ "" ∧
      (∀ c cs, q.data = c :: cs → isPySpace c = false) ∧
      (∀ d, q.data.getLast? = some d → isPySpace d = false) ∧
      '\n' ∉ q.data ∧
      pyStrip q = q ∧ normWs q = q := by
  intro q hq
  rcases cleanParasMemInv _ q hq with ⟨cand, _, hne, _, hq'⟩
  subst hq'
  have hrdata : (pyStrip cand).data = pyStripData cand.data := rfl
  have hrne : (pyStrip cand).data ≠ [] := strNeEmptyIff.mp hne
  rcases stripDataHeadLast cand.data with h0 |
    ⟨⟨c, cs, hcons, hcws⟩, ⟨d, hd, hdws⟩⟩
  · rw [hrdata] at hrne
    exact absurd h0 hrne
  · have hqdata : (normWs (pyStrip cand)).data =
        normWsAux false (pyStripData cand.data) := rfl
    have hhead : normWsAux false (pyStripData cand.data) =
        c :: normWsAux false cs := by
      rw [hcons]
      simp [normWsAux, hcws]
    have hlast : (normWsAux false (pyStripData cand.data)).getLast? =
        some d := normWsAuxLast (pyStripData cand.data) false d hd hdws
    refine ⟨?_, ?_, ?_, ?_, ?_, ?_⟩
    · rw [strNeEmptyIff, hqdata, hhead]
      simp
    · intro c' cs' hcc
      rw [hqdata, hhead] at hcc
      injection hcc with h1 _
      rw [← h1]
      exact hcws
    · intro d' hd'
      rw [hqdata, hlast] at hd'
      injection hd' with h1
      rw [← h1]
      exact hdws
    · rw [hqdata]
      exact normWsAuxNoNl _ false
    · apply strExt
      show pyStripData (normWs (pyStrip cand)).data =
        (normWs (pyStrip cand)).data
      apply stripDataNoop
      · intro c' cs' hcc
        rw [hqdata, hhead] at hcc
        injection hcc with h1 _
        rw [← h1]
        exact hcws
      · intro d' hd'
        rw [hqdata, hlast] at hd'
        injection hd' with h1
        rw [← h1]
        exact hdws
    · apply strExt
      show normWsAux false (normWs (pyStrip cand)).data =
        (normWs (pyStrip cand)).data
      rw [hqdata]
      exact (normWsAuxIdem (pyStripData cand.data)).1

theorem splitBlankAuxSkip :
    ∀ (xs rest acc : List Char), (∀ c ∈ xs, c ≠ '\n') →
      splitBlankAux (xs ++ rest) acc [] =
        splitBlankAux rest (xs.reverse ++ acc) [] := by
  intro xs
  induction xs with
  | nil => intro rest acc _; simp
  | cons x xs' ih =>
    intro rest acc hxs
    have hx : x ≠ '\n' := hxs x (List.mem_cons_self x xs')
    rw [show splitBlankAux ((x :: xs') ++ rest) acc [] =
        splitBlankAux (xs' ++ rest) (x :: acc) [] from by
      show splitBlankAux (x :: (xs' ++ rest)) acc [] = _
      simp [splitBlankAux, hx]]
    rw [ih rest (x :: acc) (fun c hc => hxs c (List.mem_cons_of_mem x hc))]
    simp

theorem splitBlankAuxSep (acc : List Char) (c : Char) (rest2 : List Char)
    (hc : isPySpace c = false) :
    splitBlankAux ('\n' :: '\n' :: c :: rest2) acc [] =
      String.mk acc.reverse :: splitBlankAux rest2 [c] [] := by
  rw [show splitBlankAux ('\n' :: '\n' :: c :: rest2) acc [] =
      splitBlankAux ('\n' :: c :: rest2) acc ['\n'] from by
    simp [splitBlankAux]]
  rw [show splitBlankAux ('\n' :: c :: rest2) acc ['\n'] =
      splitBlankAux (c :: rest2) acc ['\n', '\n'] from by
    simp [splitBlankAux, isPySpace]]
  rw [show splitBlankAux (c :: rest2) acc ['\n', '\n'] =
      String.mk acc.reverse :: splitBlankAux rest2 [c] [] from by
    simp [splitBlankAux, hc]]

theorem splitBlankAuxFin (acc : List Char) :
    splitBlankAux [] acc [] = [String.mk acc.reverse] := by
  simp [splitBlankAux]

theorem splitBlankAuxStart (c : Char) (rest2 : List Char) (hc : c ≠ '\n') :
    splitBlankAux (c :: rest2) [] [] = splitBlankAux rest2 [c] [] := by
  simp [splitBlankAux, hc]

theorem strMkData (s : String) : String.mk s.data = s := rfl

theorem getLastAppendRight (a b : List Char) (hb : b ≠ []) :
    (a ++ b).getLast? = b.getLast? := by
  induction a with
  | nil => rfl
  | cons x xs ih =>
    cases hcase : xs ++ b with
    | nil => exact absurd (List.append_eq_nil.mp hcase).2 hb
    | cons y ys =>
      rw [List.cons_append, hcase, List.getLast?_cons_cons, ← hcase, ih]

theorem joinBlankDataCons (p q : String) (rest : List String) :
    (joinBlank (p :: q :: rest)).data =
      p.data ++ '\n' :: '\n' :: (joinBlank (q :: rest)).data := by
  show (p ++ "\n\n" ++ joinBlank (q :: rest)).data = _
  rw [String.data_append, String.data_append,
    show ("\n\n" : String).data = ['\n', '\n'] from rfl]
  simp

theorem joinBlankHead (q : String) (rest : List String) (c : Char)
    (cs : List Char) (hq : q.data = c :: cs) :
    ∃ tail, (joinBlank (q :: rest)).data = c :: tail := by
  cases rest with
  | nil => exact ⟨cs, hq⟩
  | cons q' rest' =>
    rw [joinBlankDataCons, hq]
    exact ⟨cs ++ '\n' :: '\n' :: (joinBlank (q' :: rest')).data, rfl⟩

theorem splitBlankJoin :
    ∀ (qs : List String), qs ≠ [] →
      (∀ q ∈ qs, q ≠ "" ∧
        (∀ c cs, q.data = c :: cs → isPySpace c = false) ∧
        '\n' ∉ q.data) →
      splitBlank (joinBlank qs) = qs := by
  intro qs
  induction qs with
  | nil => intro h; exact absurd rfl h
  | cons q rest ih =>
    intro _ hprops
    have hq := hprops q (List.mem_cons_self q rest)
    have hqnl : ∀ c ∈ q.data, c ≠ '\n' := by
      intro c hc habs
      subst habs
      exact hq.2.2 hc
    cases rest with
    | nil =>
      show splitBlankAux (joinBlank [q]).data [] [] = [q]
      rw [show (joinBlank [q]).data = q.data ++ [] from by simp [joinBlank]]
      rw [splitBlankAuxSkip q.data [] [] hqnl, splitBlankAuxFin]
      rw [List.append_nil, List.reverse_reverse, strMkData]
    | cons q' rest' =>
      have hq' := hprops q' (List.mem_cons_of_mem q
        (List.mem_cons_self q' rest'))
      have hq'ne : q'.data ≠ [] := strNeEmptyIff.mp hq'.1
      rcases hcase : q'.data with _ | ⟨c, cs⟩
      · exact absurd hcase hq'ne
      · have hcws : isPySpace c = false := hq'.2.1 c cs hcase
        have hcnl : c ≠ '\n' := by
          intro habs
          rw [habs] at hcws
          exact absurd hcws (by decide)
        rcases joinBlankHead q' rest' c cs hcase with ⟨tail, htail⟩
        show splitBlankAux (joinBlank (q :: q' :: rest')).data [] [] = _
        rw [joinBlankDataCons, splitBlankAuxSkip q.data _ [] hqnl,
          List.append_nil, htail, splitBlankAuxSep _ c tail hcws,
          List.reverse_reverse, strMkData]
        rw [← splitBlankAuxStart c tail hcnl, ← htail]
        rw [show splitBlankAux (joinBlank (q' :: rest')).data [] [] =
            splitBlank (joinBlank (q' :: rest')) from rfl]
        rw [ih (by simp)
          (fun x hx => hprops x (List.mem_cons_of_mem q hx))]

theorem joinBlankLast :
    ∀ (qs : List String) (q : String), qs ≠ [] →
      (∀ x ∈ qs, x ≠ "") → qs.getLast? = some q →
      (joinBlank qs).data.getLast? = q.data.getLast? := by
  intro qs
  induction qs with
  | nil => intro q h; exact absurd rfl h
  | cons p rest ih =>
    intro q _ hne hlast
    cases rest with
    | nil =>
      simp only [List.getLast?_singleton, Option.some.injEq] at hlast
      subst hlast
      rfl
    | cons p' rest' =>
      rw [List.getLast?_cons_cons] at hlast
      have hrec := ih q (by simp)
        (fun x hx => hne x (List.mem_cons_of_mem p hx)) hlast
      rw [joinBlankDataCons]
      have hjne : (joinBlank (p' :: rest')).data ≠ [] := by
        intro habs
        rcases hcase : p'.data with _ | ⟨c, cs⟩
        · exact strNeEmptyIff.mp
            (hne p' (List.mem_cons_of_mem p (List.mem_cons_self p' rest')))
            hcase
        · rcases joinBlankHead p' rest' c cs hcase with ⟨tail, htail⟩
          rw [htail] at habs
          exact absurd habs (by simp)
      rw [← hrec]
      rw [show p.data ++ '\n' :: '\n' :: (joinBlank (p' :: rest')).data =
          (p.data ++ ['\n', '\n']) ++ (joinBlank (p' :: rest')).data from by
        simp]
      rw [getLastAppendRight _ _ hjne]

theorem getLastMemStr :
    ∀ (l : List String) (a : String), l.getLast? = some a → a ∈ l := by
  intro l
  induction l with
  | nil => intro a h; simp at h
  | cons x xs ih =>
    intro a h
    cases xs with
    | nil =>
      simp only [List.getLast?_singleton, Option.some.injEq] at h
      subst h
      exact List.mem_cons_self _ _
    | cons y ys =>
      rw [List.getLast?_cons_cons] at h
      exact List.mem_cons_of_mem x (ih a h)

theorem getLastSomeStr :
    ∀ l : List String, l ≠ [] → ∃ a, l.getLast? = some a := by
  intro l
  induction l with
  | nil => intro h; exact absurd rfl h
  | cons x xs ih =>
    intro _
    cases xs with
    | nil => exact ⟨x, rfl⟩
    | cons y ys =>
      rcases ih (by simp) with ⟨a, ha⟩
      exact ⟨a, by rw [List.getLast?_cons_cons]; exact ha⟩

theorem pyStripJoinBlank (qs : List String) (hqs : qs ≠ [])
    (hprops : ∀ q ∈ qs, q ≠ "" ∧
      (∀ c cs, q.data = c :: cs → isPySpace c = false) ∧
      (∀ d, q.data.getLast? = some d → isPySpace d = false)) :
    pyStrip (joinBlank qs) = joinBlank qs := by
  cases qs with
  | nil => exact absurd rfl hqs
  | cons q rest =>
    have hq := hprops q (List.mem_cons_self q rest)
    rcases hcase : q.data with _ | ⟨c, cs⟩
    · exact absurd hcase (strNeEmptyIff.mp hq.1)
    · rcases joinBlankHead q rest c cs hcase with ⟨tail, htail⟩
      rcases getLastSomeStr (q :: rest) (by simp) with ⟨qlast, hql⟩
      have hqlast := hprops qlast (getLastMemStr _ _ hql)
      have hlast := joinBlankLast (q :: rest) qlast (by simp)
        (fun x hx => (hprops x hx).1) hql
      apply strExt
      show pyStripData (joinBlank (q :: rest)).data = _
      apply stripDataNoop
      · intro c' cs' hcc
        rw [htail] at hcc
        injection hcc with h1 _
        rw [← h1]
        exact hq.2.1 c cs hcase
      · intro d hd
        rw [hlast] at hd
        exact hqlast.2.2 d hd

theorem cleanParasFixed :
    ∀ qs : List String,
      (∀ q ∈ qs, q ≠ "" ∧ pyStrip q = q ∧ normWs q = q) →
      cleanParas qs = qs.filter (fun q => decide (20 < q.length)) := by
  intro qs
  induction qs with
  | nil => intro _; rfl
  | cons q rest ih =>
    intro hprops
    have hq := hprops q (List.mem_cons_self q rest)
    have hrec := ih (fun x hx => hprops x (List.mem_cons_of_mem q hx))
    by_cases h20 : 20 < q.length
    · rw [show cleanParas (q :: rest) =
          normWs (pyStrip q) :: cleanParas rest from
        if_pos ⟨by rw [hq.2.1]; exact hq.1, by rw [hq.2.1]; exact h20⟩]
      rw [hq.2.1, hq.2.2, hrec, List.filter_cons, if_pos (by simpa using h20)]
    · rw [show cleanParas (q :: rest) = cleanParas rest from
        if_neg (by rw [hq.2.1]; intro habs; exact h20 habs.2)]
      rw [hrec, List.filter_cons, if_neg (by simpa using h20)]

/-- C9 counterexample: the length test `len(para) > 20` runs *before*
whitespace normalization, so a returned paragraph can have normalized
length at most 20; re-splitting the blank-line join then discards it.  The
25-character raw paragraph `"aaaa" + 12 tabs + "bbbbbbbbb"` is returned as
the 14-character paragraph `"aaaa bbbbbbbbb"`, and re-splitting yields the
empty sequence, not the same paragraph sequence. -/
theorem C9_counterexample :
    splitByParagraphs "aaaa\t\t\t\t\t\t\t\t\t\t\t\tbbbbbbbbb" =
      ["aaaa bbbbbbbbb"] ∧
    joinBlank ["aaaa bbbbbbbbb"] = "aaaa bbbbbbbbb" ∧
    splitByParagraphs
      (joinBlank (splitByParagraphs "aaaa\t\t\t\t\t\t\t\t\t\t\t\tbbbbbbbbb")) =
      [] ∧
    (["aaaa bbbbbbbbb"] : List String) ≠ [] := by
  refine ⟨by decide, rfl, by decide, by decide⟩

/-- C9 amended: re-splitting the blank-line join of the returned paragraphs
yields exactly the returned paragraphs whose (normalized) length exceeds
20 — the same sequence whenever every returned paragraph still exceeds the
threshold after whitespace normalization, but in general a filtered
subsequence, because the `> 20` test is applied to the paragraph before
normalization. -/
theorem C9_idem_amended (t : String) :
    splitByParagraphs (joinBlank (splitByParagraphs t)) =
      (splitByParagraphs t).filter (fun q => decide (20 < q.length)) := by
  by_cases h : splitByParagraphs t = []
  · rw [h]
    rfl
  · have hnorm := splitByParagraphsNorm t
    show cleanParas
      (splitBlank (pyStrip (joinBlank (splitByParagraphs t)))) = _
    rw [pyStripJoinBlank _ h (fun q hq =>
      ⟨(hnorm q hq).1, (hnorm q hq).2.1, (hnorm q hq).2.2.1⟩)]
    rw [splitBlankJoin _ h (fun q hq =>
      ⟨(hnorm q hq).1, (hnorm q hq).2.1, (hnorm q hq).2.2.2.1⟩)]
    exact cleanParasFixed _ (fun q hq =>
      ⟨(hnorm q hq).1, (hnorm q hq).2.2.2.2.1, (hnorm q hq).2.2.2.2.2⟩)
